import Mathlib

/- Verification of the 2-D mesh-generation subsystem of py-tdgl
   (tdgl/device/mesh.py): coordinate deduplication (ensure_unique),
   constrained-triangulation setup and adaptive refinement (generate_mesh),
   mesh optimization (optimize_mesh) and boundary loop extraction
   (oriented_boundary).

   Modelling conventions: floating-point coordinates are modelled by exact
   rationals; the external libraries used by the source (meshpy's
   triangle.build, scipy's ConvexHull, shapely's Polygon centroid and
   polygonize/orient, numpy's sqrt, optimesh) are modelled as abstract
   function parameters, since they are not part of this repository. -/

attribute [local semireducible] Rat.add Rat.sub Rat.mul Rat.inv

/-- A 2-D vertex coordinate, modelled exactly by a pair of rationals. -/
abbrev Coord : Type := ℚ × ℚ

/-- A triangle given by three vertex indices. -/
abbrev Tri : Type := ℕ × ℕ × ℕ

/-- The index of the first occurrence of `x` in `l` (equal to `l.length` when
`x` does not occur).  This is the value `np.unique(..., return_index=True)`
reports for each distinct row, and also the value of Python's
`list.index` when `x ∈ l`. -/
def firstIndex : List Coord → Coord → ℕ
  | [], _ => 0
  | y :: ys, x => if y = x then 0 else firstIndex ys x + 1

/-- Shallow embedding of `ensure_unique` (mesh.py lines 17-25).
`np.unique(coords, return_index=True, axis=0)` returns, for each distinct
row, the index of its first occurrence; sorting those indices and selecting
them from `coords` keeps the first occurrence of every distinct coordinate,
in input order.  An index `i` is a first-occurrence index exactly when
`firstIndex coords coords[i] = i`, so the sorted index selection is the
ascending filter of `List.range coords.length` by that predicate. -/
def ensure_unique (coords : List Coord) : List Coord :=
  ((List.range coords.length).filter fun i =>
      decide (firstIndex coords (coords.getD i (0, 0)) = i)).map
    fun i => coords.getD i (0, 0)

lemma firstIndex_le_of_get :
    ∀ (l : List Coord) (i : Fin l.length), firstIndex l (l.get i) ≤ i
  | y :: ys, ⟨0, _⟩ => by simp [firstIndex]
  | y :: ys, ⟨k + 1, hk⟩ => by
    simp only [List.get_cons_succ, firstIndex]
    split
    · exact Nat.zero_le _
    · exact Nat.succ_le_succ (firstIndex_le_of_get ys ⟨k, Nat.lt_of_succ_lt_succ hk⟩)

lemma firstIndex_lt_length {l : List Coord} {x : Coord} (h : x ∈ l) :
    firstIndex l x < l.length := by
  induction l with
  | nil => cases h
  | cons y ys ih =>
    simp only [firstIndex, List.length_cons]
    by_cases hyx : y = x
    · simp [hyx]
    · have hx : x ∈ ys := by
        rcases List.mem_cons.mp h with h1 | h1
        · exact absurd h1.symm hyx
        · exact h1
      simp [hyx, Nat.succ_lt_succ (ih hx)]

lemma getD_firstIndex {l : List Coord} {x : Coord} (h : x ∈ l) (d : Coord) :
    l.getD (firstIndex l x) d = x := by
  induction l with
  | nil => cases h
  | cons y ys ih =>
    simp only [firstIndex]
    by_cases hyx : y = x
    · simp [hyx]
    · have hx : x ∈ ys := by
        rcases List.mem_cons.mp h with h1 | h1
        · exact absurd h1.symm hyx
        · exact h1
      rw [if_neg hyx, List.getD_cons_succ]
      exact ih hx

lemma firstIndex_get_of_nodup {l : List Coord} (h : l.Nodup) (i : Fin l.length) :
    firstIndex l (l.get i) = i := by
  have hmem : l.get i ∈ l := by
    rw [List.get_eq_getElem]
    exact List.getElem_mem _
  have hlt := firstIndex_lt_length hmem
  have hget : l.get ⟨firstIndex l (l.get i), hlt⟩ = l.get i := by
    have hd := getD_firstIndex hmem (0, 0)
    rw [List.getD_eq_getElem _ _ hlt] at hd
    rw [List.get_eq_getElem]
    exact hd
  exact congrArg Fin.val ((List.Nodup.get_inj_iff h).mp hget)

lemma map_getD_range {α : Type _} (d : α) :
    ∀ l : List α, (List.range l.length).map (fun i => l.getD i d) = l
  | [] => by simp
  | x :: xs => by
    rw [List.length_cons, List.range_succ_eq_map, List.map_cons, List.map_map]
    have h : ((fun i => (x :: xs).getD i d) ∘ Nat.succ) = fun i => xs.getD i d := by
      funext i
      simp [Function.comp, List.getD_cons_succ]
    rw [List.getD_cons_zero, h, map_getD_range d xs]

lemma mem_ensure_unique_aux {coords : List Coord} {i : ℕ}
    (h : i ∈ (List.range coords.length).filter fun i =>
        decide (firstIndex coords (coords.getD i (0, 0)) = i)) :
    i < coords.length ∧ firstIndex coords (coords.getD i (0, 0)) = i := by
  rcases List.mem_filter.mp h with ⟨hr, hp⟩
  exact ⟨List.mem_range.mp hr, of_decide_eq_true hp⟩

lemma ensure_unique_mem (coords : List Coord) (x : Coord) :
    x ∈ ensure_unique coords ↔ x ∈ coords := by
  unfold ensure_unique
  constructor
  · intro hx
    rcases List.mem_map.mp hx with ⟨i, hi, rfl⟩
    have h := mem_ensure_unique_aux hi
    rw [List.getD_eq_getElem _ _ h.1]
    exact List.getElem_mem _
  · intro hx
    have hlt : firstIndex coords x < coords.length := firstIndex_lt_length hx
    refine List.mem_map.mpr ⟨firstIndex coords x, ?_, ?_⟩
    · refine List.mem_filter.mpr ⟨List.mem_range.mpr hlt, decide_eq_true ?_⟩
      rw [getD_firstIndex hx]
    · exact getD_firstIndex hx _

lemma ensure_unique_nodup (coords : List Coord) : (ensure_unique coords).Nodup := by
  unfold ensure_unique
  refine List.Nodup.map_on ?_ (List.Nodup.filter _ (List.nodup_range _))
  intro i hi j hj hij
  have h1 := mem_ensure_unique_aux hi
  have h2 := mem_ensure_unique_aux hj
  rw [← h1.2, ← h2.2, hij]

lemma ensure_unique_pairwise (coords : List Coord) :
    (ensure_unique coords).Pairwise fun u v =>
      firstIndex coords u < firstIndex coords v := by
  unfold ensure_unique
  rw [List.pairwise_map]
  have hpw : ((List.range coords.length).filter fun i =>
      decide (firstIndex coords (coords.getD i (0, 0)) = i)).Pairwise (· < ·) :=
    List.Pairwise.filter _ (List.pairwise_lt_range _)
  refine List.Pairwise.imp_of_mem ?_ hpw
  intro i j hi hj hij
  have h1 := mem_ensure_unique_aux hi
  have h2 := mem_ensure_unique_aux hj
  rw [h1.2, h2.2]
  exact hij

lemma ensure_unique_of_nodup {coords : List Coord} (h : coords.Nodup) :
    ensure_unique coords = coords := by
  unfold ensure_unique
  have hall : ∀ i ∈ List.range coords.length,
      decide (firstIndex coords (coords.getD i (0, 0)) = i) = true := by
    intro i hi
    have hlt : i < coords.length := List.mem_range.mp hi
    refine decide_eq_true ?_
    have hg : coords.getD i (0, 0) = coords.get ⟨i, hlt⟩ := by
      rw [List.getD_eq_getElem _ _ hlt, List.get_eq_getElem]
    rw [hg]
    exact firstIndex_get_of_nodup h ⟨i, hlt⟩
  rw [List.filter_eq_self.mpr hall, map_getD_range]

lemma ensure_unique_length_lt {coords : List Coord} (h : ¬ coords.Nodup) :
    (ensure_unique coords).length < coords.length := by
  have hinj : ¬ Function.Injective coords.get := fun hc =>
    h (List.nodup_iff_injective_get.mpr hc)
  rw [Function.Injective] at hinj
  push_neg at hinj
  rcases hinj with ⟨i, j, hij, hne⟩
  -- the later of the two equal positions is not a first occurrence
  have key : ∀ a b : Fin coords.length, coords.get a = coords.get b →
      a.val < b.val → (ensure_unique coords).length < coords.length := by
    intro a b hab hlt
    have hle : firstIndex coords (coords.get b) ≤ a.val := by
      rw [← hab]
      exact firstIndex_le_of_get coords a
    have hbad : ¬ (firstIndex coords (coords.getD b.val (0, 0)) = b.val) := by
      rw [List.getD_eq_getElem _ _ b.isLt, ← List.get_eq_getElem]
      omega
    unfold ensure_unique
    rw [List.length_map]
    calc ((List.range coords.length).filter fun i =>
            decide (firstIndex coords (coords.getD i (0, 0)) = i)).length
        < (List.range coords.length).length := by
          refine List.length_filter_lt_length_iff_exists.mpr ?_
          exact ⟨b.val, List.mem_range.mpr b.isLt, by simpa using hbad⟩
      _ = coords.length := List.length_range _
  rcases lt_trichotomy i.val j.val with hlt | heq | hgt
  · exact key i j hij hlt
  · exact absurd (Fin.ext heq) hne
  · exact key j i hij.symm hgt

/-- Claim C3: `ensure_unique` returns each distinct coordinate exactly once,
in order of first occurrence in the input; an already-unique input is
returned unchanged, and an input containing repeats yields a strictly
shorter output consisting of exactly the distinct input values in
first-occurrence order. -/
theorem ensure_unique_spec (coords : List Coord) :
    (ensure_unique coords).Nodup ∧
    (∀ x, x ∈ ensure_unique coords ↔ x ∈ coords) ∧
    ((ensure_unique coords).Pairwise fun u v =>
      firstIndex coords u < firstIndex coords v) ∧
    (coords.Nodup → ensure_unique coords = coords) ∧
    (¬ coords.Nodup → (ensure_unique coords).length < coords.length) :=
  ⟨ensure_unique_nodup coords, ensure_unique_mem coords,
   ensure_unique_pairwise coords, fun h => ensure_unique_of_nodup h,
   fun h => ensure_unique_length_lt h⟩

/-- Concrete witness for C3: on the input `[(0,0), (1,1), (0,0)]`, which has
a repeat, the deduplicated result is nodup and strictly shorter. -/
theorem ensure_unique_spec_witness :
    (ensure_unique [((0 : ℚ), (0 : ℚ)), (1, 1), (0, 0)]).Nodup ∧
    (ensure_unique [((0 : ℚ), (0 : ℚ)), (1, 1), (0, 0)]).length <
      ([((0 : ℚ), (0 : ℚ)), (1, 1), (0, 0)] : List Coord).length :=
  ⟨(ensure_unique_spec [((0 : ℚ), (0 : ℚ)), (1, 1), (0, 0)]).1,
   (ensure_unique_spec [((0 : ℚ), (0 : ℚ)), (1, 1), (0, 0)]).2.2.2.2 (by decide)⟩

/-- Engine keyword options, mirroring Python's `**kwargs` dict as an
association list.  Only rational-valued options are modelled: the source
itself reads and writes only the rational option `"max_volume"` and treats
everything else opaquely. -/
abbrev Dict : Type := List (String × ℚ)

/-- Dictionary lookup (`kwargs[k]` / `kwargs.get(k)`). -/
def dictGet : Dict → String → Option ℚ
  | [], _ => none
  | kv :: rest, k => if kv.1 = k then some kv.2 else dictGet rest k

/-- Dictionary assignment (`kwargs[k] = v`): replaces the value in place when
the key is present, otherwise appends the binding. -/
def dictSet : Dict → String → ℚ → Dict
  | [], k, v => [(k, v)]
  | kv :: rest, k, v => if kv.1 = k then (k, v) :: rest else kv :: dictSet rest k v

lemma dictGet_dictSet_self : ∀ (d : Dict) (k : String) (v : ℚ),
    dictGet (dictSet d k v) k = some v
  | [], k, v => by simp [dictSet, dictGet]
  | kv :: rest, k, v => by
    by_cases h : kv.1 = k
    · simp [dictSet, h, dictGet]
    · simp only [dictSet, if_neg h, dictGet]
      exact dictGet_dictSet_self rest k v

lemma dictGet_dictSet_ne : ∀ (d : Dict) (k k' : String) (v : ℚ), k' ≠ k →
    dictGet (dictSet d k v) k' = dictGet d k'
  | [], k, k', v, h => by
    have h1 : ¬ (k = k') := fun hh => h hh.symm
    simp only [dictSet, dictGet]
    rw [if_neg h1]
  | kv :: rest, k, k', v, h => by
    have h1 : ¬ (k = k') := fun hh => h hh.symm
    by_cases hk : kv.1 = k
    · have h2 : ¬ (kv.1 = k') := fun hh => h1 (hk.symm.trans hh)
      simp only [dictSet, if_pos hk, dictGet]
      rw [if_neg h1, if_neg h2]
    · simp only [dictSet, if_neg hk, dictGet]
      by_cases hk' : kv.1 = k'
      · rw [if_pos hk', if_pos hk']
      · rw [if_neg hk', if_neg hk']
        exact dictGet_dictSet_ne rest k k' v h

instance {ε α : Type _} [DecidableEq ε] [DecidableEq α] :
    DecidableEq (Except ε α) := fun a b =>
  match a, b with
  | .error e1, .error e2 =>
    if h : e1 = e2 then isTrue (by rw [h])
    else isFalse fun hh => h (Except.error.inj hh)
  | .error _, .ok _ => isFalse fun hh => Except.noConfusion hh
  | .ok _, .error _ => isFalse fun hh => Except.noConfusion hh
  | .ok a1, .ok a2 =>
    if h : a1 = a2 then isTrue (by rw [h])
    else isFalse fun hh => h (Except.ok.inj hh)

/-- The planar straight-line graph handed to the triangulation engine:
`mesh_info.set_points`, `set_facets`, `set_holes` (mesh.py lines 90-100). -/
structure MeshInfo where
  points : List Coord
  facets : List (ℕ × ℕ)
  holes : List Coord
deriving DecidableEq

/-- One invocation of `triangle.build` (mesh.py lines 102 and 117): the
mesh info and the keyword options it received. -/
structure EngineCall where
  info : MeshInfo
  kwargs : Dict
deriving DecidableEq

/-- The external routines the source calls out to, none of which belong to
this repository: `triangle.build` (meshpy), `scipy.spatial.ConvexHull(..).simplices`,
shapely's `Polygon(..).centroid`, `np.sqrt`, and the maximum-edge-length
measurement.  `measureMax` is modelled from the spec: `get_edge_lengths`
lives in `tdgl/finite_volume/util.py`, which is not among the provided
sources; the spec describes it as computing "the maximum edge length over
all mesh triangles", kept abstract here. -/
structure Externals where
  engine : MeshInfo → Dict → List Coord × List Tri
  hull : List Coord → List (ℕ × ℕ)
  centroid : List Coord → Coord
  sqrt : ℚ → ℚ
  measureMax : List Coord → List Tri → ℚ

/-- What a terminating `generate_mesh` call returns in this model: the mesh
plus the instrumented trace of engine invocations (the initial build of
mesh.py line 102, and the refinement-loop builds of line 117, each paired
with the maximum edge length measured right after it). -/
structure MeshResult where
  points : List Coord
  triangles : List Tri
  initialCall : EngineCall
  loopCalls : List (EngineCall × ℚ)
deriving DecidableEq

/-- Shallow embedding of numpy's `x in arr` membership test as used at
mesh.py line 79 (`tuple(coords[i]) in boundary - r0`).  `boundary - r0`
is a 2-D float array, and `x in arr` evaluates `(arr == x).any()`: the
pair is broadcast against the last axis, so the test is true when ANY
boundary point matches `x` in ANY single component (x against x or y
against y), not only when some boundary point equals `x` as a pair. -/
def npContains (arr : List Coord) (x : Coord) : Bool :=
  arr.any fun b => decide (b.1 = x.1) || decide (b.2 = x.2)

/-- The outer-ring indices kept by the boundary filter at mesh.py line 79:
`[i for i in indices if tuple(coords[i]) in boundary - r0]`, with numpy's
broadcast membership semantics (`npContains`). -/
def boundaryIndices (coords : List Coord) (nPoly : ℕ) (b : List Coord)
    (r0 : Coord) : List ℕ :=
  (List.range nPoly).filter fun i =>
    npContains (b.map fun p => p - r0) (coords.getD i (0, 0))

/-- The outer-ring index filter as the spec describes it (spec section 4.2
step 3, claim C2): keep index `i` exactly when the recentered coordinate
pair `coords[i]` occurs as a whole point in the identically recentered
boundary subset.  Stated only for comparison with `boundaryIndices`, which
embeds the source's actual numpy membership test. -/
def boundaryIndicesSpec (coords : List Coord) (nPoly : ℕ) (b : List Coord)
    (r0 : Coord) : List ℕ :=
  (List.range nPoly).filter fun i =>
    decide (coords.getD i (0, 0) ∈ b.map fun p => p - r0)

/-- `np.roll(indices, -1)`: rotate a list left by one position. -/
def rollNeg1 {α : Type _} : List α → List α
  | [] => []
  | x :: xs => xs ++ [x]

/-- `np.array([indices, np.roll(indices, -1)]).T` (mesh.py lines 80 and 86):
facets joining consecutive indices in a closed cycle. -/
def cycleFacets (l : List ℕ) : List (ℕ × ℕ) := l.zip (rollNeg1 l)

/-- One step of the hole-facet loop (mesh.py lines 82-88): the hole's facet
indices start at `indices[-1] + 1` — one past the last KEPT index, which is
one past the last point of the previous block only when no outer index was
dropped — span `len(hole)` consecutive integers, and are cycled into
facets; the new indices and facets are appended.  Python raises IndexError
when `indices` is empty. -/
def addHoleFacets (st : List ℕ × List (ℕ × ℕ)) (hole : List Coord) :
    Except String (List ℕ × List (ℕ × ℕ)) :=
  match st.1.getLast? with
  | none => .error "IndexError: index -1 is out of bounds"
  | some last =>
    let hi := List.range' (last + 1) hole.length
    .ok (st.1 ++ hi, st.2 ++ cycleFacets hi)

/-- The hole loop of mesh.py lines 82-88 over all (deduplicated) holes. -/
def addAllHoleFacets :
    List ℕ × List (ℕ × ℕ) → List (List Coord) →
    Except String (List ℕ × List (ℕ × ℕ))
  | st, [] => .ok st
  | st, hole :: rest => do
    let st2 ← addHoleFacets st hole
    addAllHoleFacets st2 rest

/-- The data generate_mesh's setup phase produces once, before any engine
invocation: the planar straight-line graph, the recentering offset `r0`,
and the bounding-box extents `dx`, `dy`. -/
structure Setup where
  info : MeshInfo
  r0 : Coord
  dx : ℚ
  dy : ℚ
deriving DecidableEq

/-- Shallow embedding of generate_mesh's setup phase (mesh.py lines 54-100):
deduplication of the outer ring and each hole, concatenation, bounding-box
recentering, outer facet construction (convex hull, boundary filter, or the
full ring), hole facets and hole markers.  The `.error` values mirror the
exceptions Python raises on this path: numpy's reduction error on an empty
combined coordinate array (line 62), the explicit ValueError for
`convex_hull` together with `boundary` (lines 70-74), and the IndexError
from `indices[-1]` on an empty index list (line 84). -/
def mesh_setup (X : Externals) (polyCoords : List Coord)
    (holeCoords : Option (List (List Coord))) (convexHull : Bool)
    (boundary : Option (List Coord)) : Except String Setup :=
  let polyC := ensure_unique polyCoords
  let holesC := (holeCoords.getD []).map ensure_unique
  match polyC ++ holesC.flatten with
  | [] => .error "zero-size array to reduction operation minimum"
  | c :: cs =>
    let xcs := (c :: cs).map Prod.fst
    let ycs := (c :: cs).map Prod.snd
    let xmin := xcs.foldl min c.1
    let xmax := xcs.foldl max c.1
    let ymin := ycs.foldl min c.2
    let ymax := ycs.foldl max c.2
    let dx := xmax - xmin
    let dy := ymax - ymin
    let r0 : Coord := (xmin + dx / 2, ymin + dy / 2)
    let coords := (c :: cs).map fun p => p - r0
    let nPoly := polyC.length
    let outer : Except String (List ℕ × List (ℕ × ℕ)) :=
      if convexHull then
        match boundary with
        | some _ => .error "Cannot have both boundary is not None and convex_hull = True."
        | none => .ok (List.range nPoly, X.hull coords)
      else
        match boundary with
        | some b =>
          let idx := boundaryIndices coords nPoly b r0
          .ok (idx, cycleFacets idx)
        | none =>
          let idx := List.range nPoly
          .ok (idx, cycleFacets idx)
    do
      let st0 ← outer
      let st ← addAllHoleFacets st0 holesC
      let markers := holesC.map fun hole => X.centroid hole - r0
      .ok ⟨⟨coords, st.2, markers⟩, r0, dx, dy⟩

/-- Normalization of `max_edge_length` (mesh.py lines 113-114): it becomes
infinity when unset or non-positive; `none` models infinity. -/
def normalizeMaxEdge (mel : Option ℚ) : Option ℚ :=
  match mel with
  | none => none
  | some L => if L ≤ 0 then none else some L

/-- The while condition of mesh.py line 116:
`points.shape[0] < min_points or max_length > max_edge_length`, where a
`none` edge-length target means infinity, making that disjunct false. -/
def continueCond (minPts : ℕ) (maxEdge : Option ℚ) (nPts : ℕ)
    (maxLength : ℚ) : Bool :=
  decide (nPts < minPts) ||
    (match maxEdge with
     | none => false
     | some L => decide (L < maxLength))

/-- The multiplicative area-bound update factor (mesh.py lines 126-129):
`min(0.98, sqrt(max_edge_length / max_length))` when the edge-length target
is finite, and a flat `0.98` otherwise. -/
def updateFactor (X : Externals) (maxEdge : Option ℚ) (maxLength : ℚ) : ℚ :=
  match maxEdge with
  | some L => min (49 / 50) (X.sqrt (L / maxLength))
  | none => 49 / 50

/-- Shallow embedding of the refinement loop (mesh.py lines 116-130), with
an explicit fuel bound: the source loop is unbounded in iteration count, and
`none` models failure to terminate within the given fuel.  Besides the final
mesh, the loop returns its trace of engine invocations, each paired with the
maximum edge length measured right after it. -/
def refineLoop (X : Externals) (info : MeshInfo) (r0 : Coord) (minPts : ℕ)
    (maxEdge : Option ℚ) :
    ℕ → Dict → List Coord → List Tri → ℚ →
    Option (List Coord × List Tri × List (EngineCall × ℚ))
  | 0, _, pts, tris, maxLen =>
    if continueCond minPts maxEdge pts.length maxLen then none
    else some (pts, tris, [])
  | fuel + 1, kw, pts, tris, maxLen =>
    if continueCond minPts maxEdge pts.length maxLen then
      let m := X.engine info kw
      let pts2 := m.1.map fun p => p + r0
      let tris2 := m.2
      let maxLen2 := X.measureMax pts2 tris2
      let mv := (dictGet kw "max_volume").getD 0
      let kw2 := dictSet kw "max_volume" (mv * updateFactor X maxEdge maxLen2)
      match refineLoop X info r0 minPts maxEdge fuel kw2 pts2 tris2 maxLen2 with
      | none => none
      | some (p, t, rest) => some (p, t, (⟨info, kw⟩, maxLen2) :: rest)
    else some (pts, tris, [])

/-- Shallow embedding of mesh.py lines 102-131: the initial engine build,
the early return when no density target is set (line 105), and otherwise
the refinement loop seeded with `max_volume = dx*dy/100` (line 109). -/
def run_refinement (X : Externals) (fuel : ℕ) (s : Setup)
    (minPoints : Option ℕ) (maxEdgeLength : Option ℚ) (kwargs : Dict) :
    Option MeshResult :=
  let m0 := X.engine s.info kwargs
  let pts0 := m0.1.map fun p => p + s.r0
  let tris0 := m0.2
  let call0 : EngineCall := ⟨s.info, kwargs⟩
  if minPoints.isNone &&
      (match maxEdgeLength with
       | none => true
       | some L => decide (L ≤ 0)) then
    some ⟨pts0, tris0, call0, []⟩
  else
    let kw1 := dictSet kwargs "max_volume" (s.dx * s.dy / 100)
    let minPts := minPoints.getD 0
    let maxEdge := normalizeMaxEdge maxEdgeLength
    let maxLen0 := X.measureMax pts0 tris0
    match refineLoop X s.info s.r0 minPts maxEdge fuel kw1 pts0 tris0 maxLen0 with
    | none => none
    | some (p, t, calls) => some ⟨p, t, call0, calls⟩

/-- Shallow embedding of `generate_mesh` (mesh.py lines 28-131), parametric
in the external engines `X` and in a fuel bound for the unbounded refinement
loop.  `.error` models the Python exceptions raised before any engine
invocation; `.ok none` models a refinement loop that does not terminate
within the fuel; `.ok (some r)` carries the returned mesh and the trace of
engine invocations made during the call. -/
def generate_mesh (X : Externals) (fuel : ℕ) (polyCoords : List Coord)
    (holeCoords : Option (List (List Coord))) (minPoints : Option ℕ)
    (maxEdgeLength : Option ℚ) (convexHull : Bool)
    (boundary : Option (List Coord)) (kwargs : Dict) :
    Except String (Option MeshResult) :=
  (mesh_setup X polyCoords holeCoords convexHull boundary).map fun s =>
    run_refinement X fuel s minPoints maxEdgeLength kwargs

/-- A concrete trivial instantiation of the external engines, used to
evaluate the model at specific inputs: the engine always returns one fixed
triangle, and the measured maximum edge length is always 0. -/
def trivialX : Externals :=
  ⟨fun _ _ => ([(0, 0), (1, 0), (0, 1)], [(0, 1, 2)]),
   fun _ => [], fun _ => (0, 0), fun q => q, fun _ _ => 0⟩

/-- Claim C1: calling `generate_mesh` with `convex_hull=True` and a non-null
`boundary` fails with the invalid-configuration ValueError of mesh.py lines
71-74, before any engine invocation and before any mesh is built (the error
return carries no mesh and no engine-call trace).  The polygon is assumed
nonempty: on an empty input the call still fails before the engine, but with
numpy's empty-reduction error at line 62 instead. -/
theorem generate_mesh_convex_hull_boundary_rejected
    (X : Externals) (fuel : ℕ) (polyCoords : List Coord)
    (holeCoords : Option (List (List Coord))) (minPoints : Option ℕ)
    (maxEdgeLength : Option ℚ) (b : List Coord) (kwargs : Dict)
    (hne : polyCoords ≠ []) :
    generate_mesh X fuel polyCoords holeCoords minPoints maxEdgeLength true
      (some b) kwargs =
      .error "Cannot have both boundary is not None and convex_hull = True." := by
  obtain ⟨x, hx⟩ : ∃ x, x ∈ polyCoords := by
    cases polyCoords with
    | nil => exact absurd rfl hne
    | cons a l => exact ⟨a, List.mem_cons_self a l⟩
  have hmem : x ∈ ensure_unique polyCoords := (ensure_unique_mem _ _).mpr hx
  simp only [generate_mesh, mesh_setup]
  cases hEU : ensure_unique polyCoords with
  | nil => rw [hEU] at hmem; cases hmem
  | cons c cs => rfl

/-- Concrete witness for C1. -/
theorem generate_mesh_convex_hull_boundary_rejected_witness :
    generate_mesh trivialX 0 [((0 : ℚ), (0 : ℚ)), (1, 0), (0, 1)] none none none
      true (some [((0 : ℚ), (0 : ℚ))]) [] =
      .error "Cannot have both boundary is not None and convex_hull = True." :=
  generate_mesh_convex_hull_boundary_rejected trivialX 0 _ none none none _ []
    (by decide)

/-- Claim C2 (code bug, mesh.py line 79): on the square
`(0,0),(2,0),(2,2),(0,2)` with boundary subset `[(0,0)]`, the recentered
coordinates are `(-1,-1),(1,-1),(1,1),(-1,1)` and the recentered boundary is
`[(-1,-1)]`.  The source's numpy broadcast membership keeps indices 0, 1 and
3 — every index agreeing with some boundary point in one single component —
while the spec's exact point membership keeps only index 0, and the outer
facets produced by `generate_mesh` cycle through the spuriously kept
indices. -/
theorem boundary_filter_numpy_broadcast_bug :
    boundaryIndices [((-1 : ℚ), (-1 : ℚ)), (1, -1), (1, 1), (-1, 1)] 4
        [((0 : ℚ), (0 : ℚ))] (1, 1) = [0, 1, 3] ∧
    boundaryIndicesSpec [((-1 : ℚ), (-1 : ℚ)), (1, -1), (1, 1), (-1, 1)] 4
        [((0 : ℚ), (0 : ℚ))] (1, 1) = [0] ∧
    (generate_mesh trivialX 0 [((0 : ℚ), (0 : ℚ)), (2, 0), (2, 2), (0, 2)] none
        none none false (some [((0 : ℚ), (0 : ℚ))]) []).map
        (Option.map fun r => r.initialCall.info.facets) =
      .ok (some [(0, 1), (1, 3), (3, 0)]) ∧
    ([0, 1, 3] : List ℕ) ≠ [0] := by
  refine ⟨by decide, by decide, by decide, by decide⟩

def poly6 : List Coord := [(0, 0), (10, 0), (10, 10), (3, 7)]

def hole6 : List Coord := [(4, 4), (6, 4), (6, 6), (4, 6)]

/-- Claim C6 (code bug, mesh.py lines 82-88): with outer ring `poly6`,
boundary subset `[(0,0)]` (which keeps only outer indices 0 and 1 under the
source's membership test) and the square hole `hole6`, the hole's four
deduplicated points occupy positions 4..7 of the combined recentered point
array, but the generated hole facets cycle over indices 2..5: the hole index
range starts at `indices[-1] + 1` — one past the last KEPT outer index —
rather than one past the last point of the preceding block.  The hole marker
is the hole's centroid recentered by `r0`, as the claim states. -/
theorem hole_facets_index_range_bug :
    (mesh_setup trivialX poly6 (some [hole6]) false
        (some [((0 : ℚ), (0 : ℚ))])).map
        (fun s => (s.info.points, s.info.facets, s.info.holes)) =
      .ok ([(-5, -5), (5, -5), (5, 5), (-2, 2), (-1, -1), (1, -1), (1, 1), (-1, 1)],
           cycleFacets [0, 1] ++ cycleFacets [2, 3, 4, 5],
           [trivialX.centroid hole6 - (5, 5)]) ∧
    cycleFacets [2, 3, 4, 5] ≠ cycleFacets [4, 5, 6, 7] := by
  refine ⟨by decide, by decide⟩

lemma continueCond_false {minPts : ℕ} {maxEdge : Option ℚ} {nPts : ℕ}
    {maxLen : ℚ} (h : continueCond minPts maxEdge nPts maxLen = false) :
    minPts ≤ nPts ∧ ∀ L, maxEdge = some L → maxLen ≤ L := by
  unfold continueCond at h
  rw [Bool.or_eq_false_iff] at h
  refine ⟨Nat.le_of_not_lt (of_decide_eq_false h.1), ?_⟩
  intro L hL
  have h2 := h.2
  rw [hL] at h2
  exact le_of_not_lt (of_decide_eq_false h2)

lemma refineLoop_exit (X : Externals) (info : MeshInfo) (r0 : Coord)
    (minPts : ℕ) (maxEdge : Option ℚ) :
    ∀ (fuel : ℕ) (kw : Dict) (pts : List Coord) (tris : List Tri) (maxLen : ℚ)
      (p : List Coord) (t : List Tri) (calls : List (EngineCall × ℚ)),
      refineLoop X info r0 minPts maxEdge fuel kw pts tris maxLen =
        some (p, t, calls) →
      maxLen = X.measureMax pts tris →
      minPts ≤ p.length ∧ ∀ L, maxEdge = some L → X.measureMax p t ≤ L := by
  intro fuel
  induction fuel with
  | zero =>
    intro kw pts tris maxLen p t calls hsome hmeas
    by_cases hc : continueCond minPts maxEdge pts.length maxLen = true
    · simp only [refineLoop, if_pos hc] at hsome
      exact Option.noConfusion hsome
    · simp only [refineLoop, if_neg hc] at hsome
      obtain ⟨rfl, rfl, rfl⟩ := by simpa using hsome
      have hfalse : continueCond minPts maxEdge pts.length maxLen = false := by
        revert hc
        cases continueCond minPts maxEdge pts.length maxLen <;> simp
      have hcf := continueCond_false hfalse
      refine ⟨hcf.1, ?_⟩
      intro L hL
      rw [← hmeas]
      exact hcf.2 L hL
  | succ fuel ih =>
    intro kw pts tris maxLen p t calls hsome hmeas
    by_cases hc : continueCond minPts maxEdge pts.length maxLen = true
    · simp only [refineLoop, if_pos hc] at hsome
      split at hsome
      · exact Option.noConfusion hsome
      · rename_i p2 t2 rest heq
        obtain ⟨rfl, rfl, rfl⟩ := by simpa using hsome
        exact ih _ _ _ _ _ _ _ heq rfl
    · simp only [refineLoop, if_neg hc] at hsome
      obtain ⟨rfl, rfl, rfl⟩ := by simpa using hsome
      have hfalse : continueCond minPts maxEdge pts.length maxLen = false := by
        revert hc
        cases continueCond minPts maxEdge pts.length maxLen <;> simp
      have hcf := continueCond_false hfalse
      refine ⟨hcf.1, ?_⟩
      intro L hL
      rw [← hmeas]
      exact hcf.2 L hL

/-- Claim C4: whenever `generate_mesh` is called with a positive finite
`max_edge_length` target `L` and a minimum vertex count `m`, and the
refinement loop returns, the returned mesh has at least `m` vertices and
its measured maximum triangle edge length is at most `L` (partial
correctness of the loop exit condition at mesh.py line 116). -/
theorem generate_mesh_refinement_exit (X : Externals) (fuel : ℕ)
    (polyCoords : List Coord) (holeCoords : Option (List (List Coord)))
    (m : ℕ) (L : ℚ) (convexHull : Bool) (boundary : Option (List Coord))
    (kwargs : Dict) (r : MeshResult) (hL : 0 < L)
    (h : generate_mesh X fuel polyCoords holeCoords (some m) (some L)
        convexHull boundary kwargs = .ok (some r)) :
    m ≤ r.points.length ∧ X.measureMax r.points r.triangles ≤ L := by
  unfold generate_mesh at h
  cases hs : mesh_setup X polyCoords holeCoords convexHull boundary with
  | error e =>
    rw [hs] at h
    exact Except.noConfusion h
  | ok s =>
    rw [hs] at h
    have h2 : run_refinement X fuel s (some m) (some L) kwargs = some r :=
      Except.ok.inj h
    simp only [run_refinement, Option.isNone_some, Bool.false_and,
      Bool.false_eq_true, if_false] at h2
    split at h2
    · exact Option.noConfusion h2
    · rename_i p t calls heq
      rw [← Option.some.inj h2]
      have hnorm : normalizeMaxEdge (some L) = some L := by
        simp [normalizeMaxEdge, not_le.mpr hL]
      rw [Option.getD_some, hnorm] at heq
      have hexit := refineLoop_exit X s.info s.r0 m (some L) fuel _ _ _ _
        p t calls heq rfl
      exact ⟨hexit.1, hexit.2 L rfl⟩

def c4Poly : List Coord := [(0, 0), (2, 0), (2, 2), (0, 2)]

/-- The mesh `generate_mesh trivialX 5 c4Poly none (some 1) (some 1) false
none []` returns: `trivialX`'s fixed triangle already satisfies both
targets, so the loop exits before building. -/
def c4Result : MeshResult :=
  ⟨[(1, 1), (2, 1), (1, 2)], [(0, 1, 2)],
   ⟨⟨[(-1, -1), (1, -1), (1, 1), (-1, 1)], [(0, 1), (1, 2), (2, 3), (3, 0)], []⟩,
    []⟩, []⟩

/-- Concrete witness for C4. -/
theorem generate_mesh_refinement_exit_witness :
    1 ≤ c4Result.points.length ∧
    trivialX.measureMax c4Result.points c4Result.triangles ≤ 1 :=
  generate_mesh_refinement_exit trivialX 5 c4Poly none 1 1 false none []
    c4Result (by norm_num) (by decide)

/-- The area-bound recurrence along a refinement trace: the first recorded
engine call received `max_volume = v`, and each later call received the
previous value multiplied by the update factor computed from the maximum
edge length measured after the previous call. -/
def mvChain (X : Externals) (maxEdge : Option ℚ) : ℚ → List (EngineCall × ℚ) → Prop
  | _, [] => True
  | v, (c, meas) :: rest =>
    dictGet c.kwargs "max_volume" = some v ∧
      mvChain X maxEdge (v * updateFactor X maxEdge meas) rest

lemma refineLoop_mvChain (X : Externals) (info : MeshInfo) (r0 : Coord)
    (minPts : ℕ) (maxEdge : Option ℚ) :
    ∀ (fuel : ℕ) (kw : Dict) (pts : List Coord) (tris : List Tri) (maxLen : ℚ)
      (p : List Coord) (t : List Tri) (calls : List (EngineCall × ℚ)) (v : ℚ),
      refineLoop X info r0 minPts maxEdge fuel kw pts tris maxLen =
        some (p, t, calls) →
      dictGet kw "max_volume" = some v →
      mvChain X maxEdge v calls := by
  intro fuel
  induction fuel with
  | zero =>
    intro kw pts tris maxLen p t calls v hsome hv
    by_cases hc : continueCond minPts maxEdge pts.length maxLen = true
    · simp only [refineLoop, if_pos hc] at hsome
      exact Option.noConfusion hsome
    · simp only [refineLoop, if_neg hc] at hsome
      obtain ⟨rfl, rfl, rfl⟩ := by simpa using hsome
      exact trivial
  | succ fuel ih =>
    intro kw pts tris maxLen p t calls v hsome hv
    by_cases hc : continueCond minPts maxEdge pts.length maxLen = true
    · simp only [refineLoop, if_pos hc] at hsome
      split at hsome
      · exact Option.noConfusion hsome
      · rename_i p2 t2 rest heq
        obtain ⟨rfl, rfl, rfl⟩ := by simpa using hsome
        refine ⟨hv, ?_⟩
        refine ih _ _ _ _ _ _ _ _ heq ?_
        rw [dictGet_dictSet_self, hv, Option.getD_some]
    · simp only [refineLoop, if_neg hc] at hsome
      obtain ⟨rfl, rfl, rfl⟩ := by simpa using hsome
      exact trivial

lemma mvChain_head (X : Externals) (maxEdge : Option ℚ) (v : ℚ) :
    ∀ (calls : List (EngineCall × ℚ)), mvChain X maxEdge v calls →
      ∀ c meas, calls.head? = some (c, meas) →
        dictGet c.kwargs "max_volume" = some v
  | [], _, c, meas, hc => by exact Option.noConfusion hc
  | (c0, m0) :: rest, h, c, meas, hc => by
    rw [List.head?_cons] at hc
    have h2 := Option.some.inj hc
    have hc0 : c0 = c := congrArg Prod.fst h2
    rw [← hc0]
    exact h.1

lemma mvChain_consecutive (X : Externals) (maxEdge : Option ℚ) :
    ∀ (calls : List (EngineCall × ℚ)) (v : ℚ), mvChain X maxEdge v calls →
      ∀ (j : ℕ) (c1 c2 : EngineCall) (m1 m2 : ℚ),
        calls[j]? = some (c1, m1) → calls[j + 1]? = some (c2, m2) →
        dictGet c2.kwargs "max_volume" =
          some (((dictGet c1.kwargs "max_volume").getD 0) *
            updateFactor X maxEdge m1)
  | [], v, h, j, c1, c2, m1, m2, h1, h2 => by
    rw [List.getElem?_nil] at h1
    exact Option.noConfusion h1
  | (c0, m0) :: rest, v, h, j, c1, c2, m1, m2, h1, h2 => by
    cases j with
    | zero =>
      rw [List.getElem?_cons_zero] at h1
      rw [List.getElem?_cons_succ] at h2
      have hp1 := Option.some.inj h1
      have hc0 : c0 = c1 := congrArg Prod.fst hp1
      have hm0 : m0 = m1 := congrArg Prod.snd hp1
      cases rest with
      | nil =>
        rw [List.getElem?_nil] at h2
        exact Option.noConfusion h2
      | cons pr rest2 =>
        obtain ⟨c2x, m2x⟩ := pr
        rw [List.getElem?_cons_zero] at h2
        have hp2 := Option.some.inj h2
        have hc2 : c2x = c2 := congrArg Prod.fst hp2
        have hhead : dictGet c1.kwargs "max_volume" = some v := by
          rw [← hc0]
          exact h.1
        have htail := h.2.1
        rw [hc2, hm0] at htail
        rw [hhead, htail, Option.getD_some]
    | succ j2 =>
      rw [List.getElem?_cons_succ] at h1
      rw [List.getElem?_cons_succ] at h2
      exact mvChain_consecutive X maxEdge rest
        (v * updateFactor X maxEdge m0) h.2 j2 c1 c2 m1 m2 h1 h2

/-- Claim C5: along any terminating `generate_mesh` run, the refinement
loop's area bound starts at `dx*dy/100` — one hundredth of the bounding-box
area of the combined deduplicated coordinates — and each later loop
invocation receives the previous bound multiplied by
`min(0.98, sqrt(target/measured))` when a finite max-edge-length target is
set, and by a flat `0.98` when only a point-count target is set
(mesh.py lines 109 and 126-129). -/
theorem refinement_area_bound_law (X : Externals) (fuel : ℕ)
    (polyCoords : List Coord) (holeCoords : Option (List (List Coord)))
    (convexHull : Bool) (boundary : Option (List Coord))
    (minPoints : Option ℕ) (maxEdgeLength : Option ℚ) (kwargs : Dict)
    (s : Setup) (r : MeshResult)
    (hs : mesh_setup X polyCoords holeCoords convexHull boundary = .ok s)
    (hr : generate_mesh X fuel polyCoords holeCoords minPoints maxEdgeLength
        convexHull boundary kwargs = .ok (some r)) :
    (∀ c meas, r.loopCalls.head? = some (c, meas) →
        dictGet c.kwargs "max_volume" = some (s.dx * s.dy / 100)) ∧
    (∀ (j : ℕ) (c1 c2 : EngineCall) (m1 m2 : ℚ),
        r.loopCalls[j]? = some (c1, m1) → r.loopCalls[j + 1]? = some (c2, m2) →
        dictGet c2.kwargs "max_volume" =
          some (((dictGet c1.kwargs "max_volume").getD 0) *
            updateFactor X (normalizeMaxEdge maxEdgeLength) m1)) := by
  unfold generate_mesh at hr
  rw [hs] at hr
  have h2 : run_refinement X fuel s minPoints maxEdgeLength kwargs = some r :=
    Except.ok.inj hr
  have hchain : mvChain X (normalizeMaxEdge maxEdgeLength)
      (s.dx * s.dy / 100) r.loopCalls := by
    simp only [run_refinement] at h2
    split at h2
    · rw [← Option.some.inj h2]
      exact trivial
    · split at h2
      · exact Option.noConfusion h2
      · rename_i p t calls heq
        rw [← Option.some.inj h2]
        exact refineLoop_mvChain X s.info s.r0 _ _ fuel _ _ _ _ p t calls _
          heq (dictGet_dictSet_self kwargs "max_volume" _)
  exact ⟨fun c meas hc => mvChain_head X _ _ r.loopCalls hchain c meas hc,
    fun j c1 c2 m1 m2 h1 hh2 =>
      mvChain_consecutive X _ r.loopCalls _ hchain j c1 c2 m1 m2 h1 hh2⟩

/-- Concrete externals whose engine returns a four-point mesh exactly when
it receives `max_volume = 1`, and a three-point mesh otherwise; the measured
maximum edge length is always 0. -/
def twoCallX : Externals :=
  ⟨fun _ kw => if dictGet kw "max_volume" = some 1 then
      ([(0, 0), (1, 0), (0, 1), (1, 1)], [(0, 1, 2), (1, 3, 2)])
    else ([(0, 0), (1, 0), (0, 1)], [(0, 1, 2)]),
   fun _ => [], fun _ => (0, 0), fun q => q, fun _ _ => 0⟩

def sq10 : List Coord := [(0, 0), (10, 0), (10, 10), (0, 10)]

def info10 : MeshInfo :=
  ⟨[(-5, -5), (5, -5), (5, 5), (-5, 5)], [(0, 1), (1, 2), (2, 3), (3, 0)], []⟩

def s10 : Setup := ⟨info10, (5, 5), 10, 10⟩

/-- The result of `generate_mesh twoCallX 5 sq10 none (some 4) none false
none [("max_volume", 42)]`: the initial build receives the caller's
`max_volume = 42` and yields 3 points, so one refinement iteration runs
with the loop's own bound `dx*dy/100 = 1` and yields 4 points. -/
def r10 : MeshResult :=
  ⟨[(5, 5), (6, 5), (5, 6), (6, 6)], [(0, 1, 2), (1, 3, 2)],
   ⟨info10, [("max_volume", 42)]⟩, [(⟨info10, [("max_volume", 1)]⟩, 0)]⟩

/-- Concrete witness for C5: in the `twoCallX` run the single loop
invocation received `max_volume = 10*10/100`. -/
theorem refinement_area_bound_law_witness :
    dictGet [("max_volume", (1 : ℚ))] "max_volume" =
      some (s10.dx * s10.dy / 100) :=
  (refinement_area_bound_law twoCallX 5 sq10 none false none (some 4) none
      [("max_volume", 42)] s10 r10 (by decide) (by decide)).1
    ⟨info10, [("max_volume", 1)]⟩ 0 (by decide)

lemma refineLoop_kwargs_agree (X : Externals) (info : MeshInfo) (r0 : Coord)
    (minPts : ℕ) (maxEdge : Option ℚ) (kw0 : Dict) :
    ∀ (fuel : ℕ) (kw : Dict) (pts : List Coord) (tris : List Tri) (maxLen : ℚ)
      (p : List Coord) (t : List Tri) (calls : List (EngineCall × ℚ)),
      refineLoop X info r0 minPts maxEdge fuel kw pts tris maxLen =
        some (p, t, calls) →
      (∀ key, key ≠ "max_volume" → dictGet kw key = dictGet kw0 key) →
      ∀ pr ∈ calls, ∀ key, key ≠ "max_volume" →
        dictGet pr.1.kwargs key = dictGet kw0 key := by
  intro fuel
  induction fuel with
  | zero =>
    intro kw pts tris maxLen p t calls hsome hagree
    by_cases hc : continueCond minPts maxEdge pts.length maxLen = true
    · simp only [refineLoop, if_pos hc] at hsome
      exact Option.noConfusion hsome
    · simp only [refineLoop, if_neg hc] at hsome
      obtain ⟨rfl, rfl, rfl⟩ := by simpa using hsome
      intro pr hpr
      exact absurd hpr (List.not_mem_nil pr)
  | succ fuel ih =>
    intro kw pts tris maxLen p t calls hsome hagree
    by_cases hc : continueCond minPts maxEdge pts.length maxLen = true
    · simp only [refineLoop, if_pos hc] at hsome
      split at hsome
      · exact Option.noConfusion hsome
      · rename_i p2 t2 rest heq
        obtain ⟨rfl, rfl, rfl⟩ := by simpa using hsome
        intro pr hpr key hk
        rcases List.mem_cons.mp hpr with hpr1 | hpr1
        · rw [hpr1]
          exact hagree key hk
        · refine ih _ _ _ _ _ _ _ heq ?_ pr hpr1 key hk
          intro key2 hk2
          rw [dictGet_dictSet_ne kw "max_volume" key2 _ hk2]
          exact hagree key2 hk2
    · simp only [refineLoop, if_neg hc] at hsome
      obtain ⟨rfl, rfl, rfl⟩ := by simpa using hsome
      intro pr hpr
      exact absurd hpr (List.not_mem_nil pr)

/-- Claim C7 (amended): caller-supplied engine options are forwarded
verbatim to the initial engine invocation; every refinement-loop invocation
receives each option other than `"max_volume"` with the caller's value
unchanged, while `"max_volume"` is overwritten by the loop's internally
computed area bound (mesh.py lines 102, 108-109, 117, 126-129). -/
theorem kwargs_forwarding_amended (X : Externals) (fuel : ℕ)
    (polyCoords : List Coord) (holeCoords : Option (List (List Coord)))
    (minPoints : Option ℕ) (maxEdgeLength : Option ℚ) (convexHull : Bool)
    (boundary : Option (List Coord)) (kwargs : Dict) (r : MeshResult)
    (hr : generate_mesh X fuel polyCoords holeCoords minPoints maxEdgeLength
        convexHull boundary kwargs = .ok (some r)) :
    r.initialCall.kwargs = kwargs ∧
    ∀ pr ∈ r.loopCalls, ∀ key, key ≠ "max_volume" →
      dictGet pr.1.kwargs key = dictGet kwargs key := by
  unfold generate_mesh at hr
  cases hs : mesh_setup X polyCoords holeCoords convexHull boundary with
  | error e =>
    rw [hs] at hr
    exact Except.noConfusion hr
  | ok s =>
    rw [hs] at hr
    have h2 : run_refinement X fuel s minPoints maxEdgeLength kwargs = some r :=
      Except.ok.inj hr
    simp only [run_refinement] at h2
    split at h2
    · rw [← Option.some.inj h2]
      refine ⟨rfl, ?_⟩
      intro pr hpr
      exact absurd hpr (List.not_mem_nil pr)
    · split at h2
      · exact Option.noConfusion h2
      · rename_i p t calls heq
        rw [← Option.some.inj h2]
        refine ⟨rfl, ?_⟩
        intro pr hpr key hk
        refine refineLoop_kwargs_agree X s.info s.r0 _ _ kwargs fuel _ _ _ _
          p t calls heq ?_ pr hpr key hk
        intro key2 hk2
        exact dictGet_dictSet_ne kwargs "max_volume" key2 _ hk2

/-- Claim C7 counterexample: with caller-supplied `max_volume = 42` and a
minimum point count forcing one refinement iteration, the refinement engine
invocation receives `max_volume = 1` — the loop's own area bound
`dx*dy/100` — instead of the caller's 42, so not every engine invocation
receives the caller's option value unchanged. -/
theorem kwargs_forwarding_counterexample :
    generate_mesh twoCallX 5 sq10 none (some 4) none false none
        [("max_volume", 42)] = .ok (some r10) ∧
    r10.loopCalls.map (fun pr => dictGet pr.1.kwargs "max_volume") =
      [some 1] ∧
    dictGet [("max_volume", (42 : ℚ))] "max_volume" = some 42 ∧
    ¬ ((1 : ℚ) = 42) := by
  refine ⟨by decide, by decide, by decide, by decide⟩

/-- Concrete witness for the amended C7: in the `twoCallX` run, the initial
engine invocation received the caller's kwargs verbatim. -/
theorem kwargs_forwarding_amended_witness :
    r10.initialCall.kwargs = [("max_volume", (42 : ℚ))] :=
  (kwargs_forwarding_amended twoCallX 5 sq10 none (some 4) none false none
      [("max_volume", 42)] r10 (by decide)).1

/-- Shallow embedding of `optimize_mesh` (mesh.py lines 134-167): the
function forwards its arguments to `optimesh.optimize_points_cells` — an
external library routine, passed here as the parameter `optimizer` — and
returns that routine's result unchanged. -/
def optimize_mesh
    (optimizer : List Coord → List Tri → String → ℚ → ℕ → Bool → Dict →
      List Coord × List Tri)
    (points : List Coord) (triangles : List Tri) (steps : ℕ) (method : String)
    (tolerance : ℚ) (verbose : Bool) (kwargs : Dict) :
    List Coord × List Tri :=
  optimizer points triangles method tolerance steps verbose kwargs

/-- Claim C8: `optimize_mesh` returns the input triangle array unchanged —
identical triples in identical order — whenever the underlying optimizer
satisfies its documented contract of preserving cell connectivity.
Modelled from the spec: `optimesh` is an external library, not code of this
repository, and spec sections 4.4 and 9 state its MeshSmoother contract as
returning a mesh with identical connectivity, taken here as the
hypothesis `hpre`. -/
theorem optimize_mesh_preserves_cells
    (optimizer : List Coord → List Tri → String → ℚ → ℕ → Bool → Dict →
      List Coord × List Tri)
    (hpre : ∀ p t meth tol st vb kw, (optimizer p t meth tol st vb kw).2 = t)
    (points : List Coord) (triangles : List Tri) (steps : ℕ) (method : String)
    (tolerance : ℚ) (verbose : Bool) (kwargs : Dict) :
    (optimize_mesh optimizer points triangles steps method tolerance verbose
      kwargs).2 = triangles :=
  hpre points triangles method tolerance steps verbose kwargs

/-- Concrete witness for C8, with the identity smoother. -/
theorem optimize_mesh_preserves_cells_witness :
    (optimize_mesh (fun p t _ _ _ _ _ => (p, t)) [((0 : ℚ), (0 : ℚ))]
      [(0, 0, 0)] 1 "cvt-block-diagonal" (1 / 1000) false []).2 =
      [((0 : ℕ), (0 : ℕ), (0 : ℕ))] :=
  optimize_mesh_preserves_cells (fun p t _ _ _ _ _ => (p, t))
    (fun _ _ _ _ _ _ _ => rfl) [((0 : ℚ), (0 : ℚ))] [(0, 0, 0)] 1
    "cvt-block-diagonal" (1 / 1000) false []


/-- Python's `list.index` (mesh.py line 190): the index of the first exact
match, raising ValueError when the coordinate is absent. -/
def listIndex : List Coord → Coord → Except String ℕ
  | [], _ => .error "ValueError: coordinate not in list"
  | y :: ys, x =>
    if y = x then .ok 0
    else
      match listIndex ys x with
      | .error e => .error e
      | .ok i => .ok (i + 1)

/-- The list comprehension of mesh.py line 190: look up every exterior
coordinate of one polygon by exact first-match in the vertex list,
propagating the first lookup failure. -/
def indexLookup (points : List Coord) : List Coord → Except String (List ℕ)
  | [] => .ok []
  | xy :: rest =>
    match listIndex points xy with
    | .error e => .error e
    | .ok i =>
      match indexLookup points rest with
      | .error e => .error e
      | .ok is => .ok (i :: is)

/-- The loop of mesh.py lines 188-191 over all reconstructed polygons: map
each polygon's exterior coordinates to vertex indices and drop the closing
vertex (`indices[:-1]`). -/
def boundaryLoops (points : List Coord) :
    List (List Coord) → Except String (List (List ℕ))
  | [] => .ok []
  | poly :: rest =>
    match indexLookup points poly with
    | .error e => .error e
    | .ok ixs =>
      match boundaryLoops points rest with
      | .error e => .error e
      | .ok more => .ok (ixs.dropLast :: more)

/-- Shallow embedding of `oriented_boundary` (mesh.py lines 170-192).  The
shapely polygonization and counterclockwise reorientation (lines 185-189)
are external library calls; the parameter `polygonizeOrient` returns, for
the given vertex array and boundary edges, each reconstructed polygon's
exterior coordinate ring (closed: the last coordinate repeats the first).
Each coordinate is then mapped back to a vertex index by exact first-match
lookup in the vertex list, and the closing vertex is dropped. -/
def oriented_boundary
    (polygonizeOrient : List Coord → List (ℕ × ℕ) → List (List Coord))
    (points : List Coord) (boundary_edges : List (ℕ × ℕ)) :
    Except String (List (List ℕ)) :=
  boundaryLoops points (polygonizeOrient points boundary_edges)

lemma listIndex_error_of_not_mem :
    ∀ {points : List Coord} {x : Coord}, x ∉ points →
      listIndex points x = .error "ValueError: coordinate not in list"
  | [], x, _ => rfl
  | y :: ys, x, h => by
    have hyx : ¬ (y = x) := fun hh => h (hh ▸ List.mem_cons_self y ys)
    have hx : x ∉ ys := fun hh => h (List.mem_cons_of_mem y hh)
    simp only [listIndex, if_neg hyx, listIndex_error_of_not_mem hx]

lemma listIndex_error_msg :
    ∀ {points : List Coord} {x : Coord} {e : String},
      listIndex points x = .error e →
      e = "ValueError: coordinate not in list"
  | [], x, e, h => (Except.error.inj h).symm
  | y :: ys, x, e, h => by
    by_cases hyx : y = x
    · simp only [listIndex, if_pos hyx] at h
      exact Except.noConfusion h
    · simp only [listIndex, if_neg hyx] at h
      cases hr : listIndex ys x with
      | error e2 =>
        simp only [hr] at h
        rw [← Except.error.inj h]
        exact listIndex_error_msg hr
      | ok i2 =>
        simp only [hr] at h
        exact Except.noConfusion h

lemma indexLookup_error_msg {points : List Coord} :
    ∀ {poly : List Coord} {e : String},
      indexLookup points poly = .error e →
      e = "ValueError: coordinate not in list"
  | [], e, h => Except.noConfusion h
  | xy :: rest, e, h => by
    cases hli : listIndex points xy with
    | error e1 =>
      simp only [indexLookup, hli] at h
      rw [← Except.error.inj h]
      exact listIndex_error_msg hli
    | ok i =>
      simp only [indexLookup, hli] at h
      cases hr : indexLookup points rest with
      | error e2 =>
        simp only [hr] at h
        rw [← Except.error.inj h]
        exact indexLookup_error_msg hr
      | ok is =>
        simp only [hr] at h
        exact Except.noConfusion h

lemma indexLookup_error {points : List Coord} :
    ∀ {poly : List Coord}, (∃ xy ∈ poly, xy ∉ points) →
      indexLookup points poly = .error "ValueError: coordinate not in list"
  | [], h => by
    rcases h with ⟨xy, hmem, _⟩
    exact absurd hmem (List.not_mem_nil xy)
  | xy0 :: rest, h => by
    cases hli : listIndex points xy0 with
    | error e1 =>
      have he1 := listIndex_error_msg hli
      simp only [indexLookup, hli, he1]
    | ok i =>
      have hrest : ∃ xy ∈ rest, xy ∉ points := by
        rcases h with ⟨xy, hmem, hnot⟩
        rcases List.mem_cons.mp hmem with h1 | h1
        · subst h1
          rw [listIndex_error_of_not_mem hnot] at hli
          exact Except.noConfusion hli
        · exact ⟨xy, h1, hnot⟩
      simp only [indexLookup, hli, indexLookup_error hrest]

lemma boundaryLoops_error {points : List Coord} :
    ∀ {polys : List (List Coord)},
      (∃ poly ∈ polys, ∃ xy ∈ poly, xy ∉ points) →
      boundaryLoops points polys =
        .error "ValueError: coordinate not in list"
  | [], h => by
    rcases h with ⟨poly, hmem, _⟩
    exact absurd hmem (List.not_mem_nil poly)
  | p :: ps, h => by
    cases hlk : indexLookup points p with
    | error e =>
      have he := indexLookup_error_msg hlk
      simp only [boundaryLoops, hlk, he]
    | ok ixs =>
      have hps : ∃ poly ∈ ps, ∃ xy ∈ poly, xy ∉ points := by
        rcases h with ⟨poly, hmem, hxy⟩
        rcases List.mem_cons.mp hmem with h1 | h1
        · subst h1
          rw [indexLookup_error hxy] at hlk
          exact Except.noConfusion hlk
        · exact ⟨poly, h1, hxy⟩
      simp only [boundaryLoops, hlk, boundaryLoops_error hps]

/-- Claim C9: if any vertex coordinate of a reconstructed boundary polygon
is not found by exact match in the supplied mesh vertex array,
`oriented_boundary` fails with a hard error — the ValueError of Python's
`list.index` at mesh.py line 190 — rather than returning a partial or
approximate result. -/
theorem oriented_boundary_missing_coord_error
    (polygonizeOrient : List Coord → List (ℕ × ℕ) → List (List Coord))
    (points : List Coord) (edges : List (ℕ × ℕ))
    (hmiss : ∃ poly ∈ polygonizeOrient points edges, ∃ xy ∈ poly, xy ∉ points) :
    oriented_boundary polygonizeOrient points edges =
      .error "ValueError: coordinate not in list" :=
  boundaryLoops_error hmiss

/-- Concrete witness for C9. -/
theorem oriented_boundary_missing_coord_error_witness :
    oriented_boundary (fun _ _ => [[((5 : ℚ), (5 : ℚ))]])
      [((0 : ℚ), (0 : ℚ))] [] = .error "ValueError: coordinate not in list" :=
  oriented_boundary_missing_coord_error _ _ _
    ⟨[((5 : ℚ), (5 : ℚ))], by decide, ((5 : ℚ), (5 : ℚ)), by decide, by decide⟩

lemma listIndex_ok :
    ∀ {points : List Coord} {x : Coord} {i : ℕ},
      listIndex points x = .ok i →
      i < points.length ∧ points.getD i (0, 0) = x ∧
        ∀ j < i, points.getD j (0, 0) ≠ x
  | [], x, i, h => Except.noConfusion h
  | y :: ys, x, i, h => by
    by_cases hyx : y = x
    · simp only [listIndex, if_pos hyx] at h
      have hi : i = 0 := (Except.ok.inj h).symm
      subst hi
      refine ⟨Nat.succ_pos _, by simpa using hyx, ?_⟩
      intro j hj
      exact absurd hj (Nat.not_lt_zero j)
    · simp only [listIndex, if_neg hyx] at h
      cases hr : listIndex ys x with
      | error e =>
        simp only [hr] at h
        exact Except.noConfusion h
      | ok i2 =>
        simp only [hr] at h
        have hi : i = i2 + 1 := (Except.ok.inj h).symm
        subst hi
        have ihh := listIndex_ok hr
        refine ⟨Nat.succ_lt_succ ihh.1, ?_, ?_⟩
        · rw [List.getD_cons_succ]
          exact ihh.2.1
        · intro j hj
          cases j with
          | zero =>
            rw [List.getD_cons_zero]
            exact hyx
          | succ j2 =>
            rw [List.getD_cons_succ]
            exact ihh.2.2 j2 (Nat.lt_of_succ_lt_succ hj)

lemma indexLookup_ok {points : List Coord} :
    ∀ {poly : List Coord} {ixs : List ℕ}, indexLookup points poly = .ok ixs →
      ∀ (k i : ℕ), ixs[k]? = some i →
        ∃ xy, poly[k]? = some xy ∧ i < points.length ∧
          points.getD i (0, 0) = xy ∧ ∀ j < i, points.getD j (0, 0) ≠ xy
  | [], ixs, h, k, i, hk => by
    have hixs : ixs = [] := (Except.ok.inj h).symm
    subst hixs
    rw [List.getElem?_nil] at hk
    exact Option.noConfusion hk
  | xy0 :: rest, ixs, h, k, i, hk => by
    cases hli : listIndex points xy0 with
    | error e =>
      simp only [indexLookup, hli] at h
      exact Except.noConfusion h
    | ok i0 =>
      simp only [indexLookup, hli] at h
      cases hr : indexLookup points rest with
      | error e =>
        simp only [hr] at h
        exact Except.noConfusion h
      | ok is0 =>
        simp only [hr] at h
        have hixs : ixs = i0 :: is0 := (Except.ok.inj h).symm
        subst hixs
        cases k with
        | zero =>
          rw [List.getElem?_cons_zero] at hk
          have hi : i0 = i := Option.some.inj hk
          subst hi
          have hok := listIndex_ok hli
          exact ⟨xy0, List.getElem?_cons_zero, hok.1, hok.2.1, hok.2.2⟩
        | succ k2 =>
          rw [List.getElem?_cons_succ] at hk
          rcases indexLookup_ok hr k2 i hk with ⟨xy, hxy, hrest⟩
          refine ⟨xy, ?_, hrest⟩
          rw [List.getElem?_cons_succ]
          exact hxy

lemma boundaryLoops_ok {points : List Coord} :
    ∀ {polys : List (List Coord)} {loops : List (List ℕ)},
      boundaryLoops points polys = .ok loops →
      ∀ (li : ℕ) (loop : List ℕ), loops[li]? = some loop →
        ∃ poly ixs, polys[li]? = some poly ∧
          indexLookup points poly = .ok ixs ∧ loop = ixs.dropLast
  | [], loops, h, li, loop, hli => by
    have hl : loops = [] := (Except.ok.inj h).symm
    subst hl
    rw [List.getElem?_nil] at hli
    exact Option.noConfusion hli
  | p :: ps, loops, h, li, loop, hli => by
    cases hlk : indexLookup points p with
    | error e =>
      simp only [boundaryLoops, hlk] at h
      exact Except.noConfusion h
    | ok ixs0 =>
      simp only [boundaryLoops, hlk] at h
      cases hbl : boundaryLoops points ps with
      | error e =>
        simp only [hbl] at h
        exact Except.noConfusion h
      | ok more =>
        simp only [hbl] at h
        have hl : loops = ixs0.dropLast :: more := (Except.ok.inj h).symm
        subst hl
        cases li with
        | zero =>
          rw [List.getElem?_cons_zero] at hli
          have hd : ixs0.dropLast = loop := Option.some.inj hli
          exact ⟨p, ixs0, List.getElem?_cons_zero, hlk, hd.symm⟩
        | succ li2 =>
          rw [List.getElem?_cons_succ] at hli
          rcases boundaryLoops_ok hbl li2 loop hli with ⟨poly, ixs, h1, h2, h3⟩
          refine ⟨poly, ixs, ?_, h2, h3⟩
          rw [List.getElem?_cons_succ]
          exact h1

lemma getElem?_dropLast_eq {α : Type _} {l : List α} {k : ℕ} {x : α}
    (h : l.dropLast[k]? = some x) : l[k]? = some x := by
  rw [List.dropLast_eq_take, List.getElem?_take] at h
  split at h
  · exact h
  · exact Option.noConfusion h

/-- Claim C10: whenever `oriented_boundary` returns without error, every
returned index is the smallest index of an exactly matching coordinate in
the vertex array: for position `k` of the `li`-th returned loop, the index
is in range of the vertex array, the vertex at that index equals the `k`-th
exterior coordinate of the `li`-th reconstructed polygon, and no smaller
index matches it — so duplicated vertex coordinates resolve to the first
occurrence, not necessarily the original edge endpoint index. -/
theorem oriented_boundary_indices_first_match
    (polygonizeOrient : List Coord → List (ℕ × ℕ) → List (List Coord))
    (points : List Coord) (edges : List (ℕ × ℕ)) (loops : List (List ℕ))
    (h : oriented_boundary polygonizeOrient points edges = .ok loops) :
    ∀ (li : ℕ) (loop : List ℕ) (k i : ℕ),
      loops[li]? = some loop → loop[k]? = some i →
      i < points.length ∧
      ∃ poly xy, (polygonizeOrient points edges)[li]? = some poly ∧
        poly[k]? = some xy ∧ points.getD i (0, 0) = xy ∧
        ∀ j < i, points.getD j (0, 0) ≠ xy := by
  intro li loop k i hli hk
  unfold oriented_boundary at h
  rcases boundaryLoops_ok h li loop hli with ⟨poly, ixs, h1, h2, h3⟩
  subst h3
  have hk2 : ixs[k]? = some i := getElem?_dropLast_eq hk
  rcases indexLookup_ok h2 k i hk2 with ⟨xy, hxy, hlt, hgd, hsm⟩
  exact ⟨hlt, poly, xy, h1, hxy, hgd, hsm⟩

def c10Points : List Coord := [(0, 0), (1, 0)]

def c10PolyFn : List Coord → List (ℕ × ℕ) → List (List Coord) :=
  fun _ _ => [[(0, 0), (1, 0), (0, 0)]]

/-- Concrete witness for C10: on a two-vertex array and one closed polygon
ring, the first returned index is 0, in range, matching vertex 0 exactly. -/
theorem oriented_boundary_indices_first_match_witness :
    (0 : ℕ) < c10Points.length ∧
    ∃ poly xy, (c10PolyFn c10Points [])[0]? = some poly ∧
      poly[0]? = some xy ∧ c10Points.getD 0 (0, 0) = xy ∧
      ∀ j < 0, c10Points.getD j (0, 0) ≠ xy :=
  oriented_boundary_indices_first_match c10PolyFn c10Points [] [[0, 1]]
    (by decide) 0 [0, 1] 0 0 (by decide) (by decide)
